import Mathlib

/-!
Verification of the incremental parse-tree cache and structural query engine
of the tolk-vscode language server (`src/server/src/trees.ts`,
`src/server/src/queries/globals.ts`).

The stateful `Trees` class is embedded as a pure state machine: the cache is
an association list in recency order (most recently used first), native tree
handles are natural-number identifiers allocated from a counter, and every
interaction with the parsing engine (tree creation, in-place edit folding,
release, parse-completed firing) is recorded in an event trace so that
resource-lifetime properties can be stated over whole runs.
-/

/-- An LSP position: zero-based line and character (`vscode-languageserver` `Position`). -/
structure Position where
  line : Nat
  character : Nat
deriving Repr, DecidableEq

/-- An LSP range with a start and an end position. -/
structure Range where
  start : Position
  endPos : Position
deriving Repr, DecidableEq

/-- A tree-sitter point: zero-based row and column (`Parser.Point`). -/
structure TsPoint where
  row : Nat
  column : Nat
deriving Repr, DecidableEq

/-- A tree-sitter edit record (`Parser.Edit`), as built by `Trees._asEdits`. -/
structure Edit where
  startPosition : TsPoint
  oldEndPosition : TsPoint
  newEndPosition : TsPoint
  startIndex : Nat
  oldEndIndex : Nat
  newEndIndex : Nat
deriving Repr, DecidableEq

/-- A cache entry (`class Entry` in trees.ts): document version, owned tree
handle, and the pending edit batches (`Parser.Edit[][]`) not yet folded in. -/
structure Entry where
  version : Nat
  tree : Nat
  edits : List (List Edit)
deriving Repr, DecidableEq

/-- An in-memory text document (`TextDocument` of
`vscode-languageserver-textdocument`, an external collaborator): URI,
monotone version, full text, and the library's offset-to-position
conversion on that text. -/
structure TextDocument where
  uri : String
  version : Nat
  text : String
  positionAt : Nat → Position

/-- One fine-grained content change (`lsp.TextDocumentContentChangeEvent`,
incremental form): replaced range, its start offset, the removed length,
and the replacement text. -/
structure Change where
  range : Range
  rangeOffset : Nat
  rangeLength : Nat
  text : String

/-- A change notification (`TextDocumentChange2` of documentStore.ts): the
document after the change plus the list of changes, in document order. -/
structure TextDocumentChange2 where
  document : TextDocument
  changes : List Change

/-- The parsing engine (`web-tree-sitter`, an external collaborator,
spec section 6). `ok text` tells whether `parser.parse` on this text
succeeds or throws; fresh tree handles are allocated by the state machine. -/
structure ParserEngine where
  ok : String → Bool

/-- Observable events of one run: engine invocations, tree lifecycle
operations and parse-completed firings, in chronological order.
`hit` records a cache-hit read of a stored tree; `parseCall` records an
invocation of the engine with the full text and the optional old-tree
reuse hint; `editTree` records one `tree.edit(delta)` fold. -/
inductive Ev where
  | hit (uri : String) (tree : Nat)
  | editTree (tree : Nat) (delta : Edit)
  | parseCall (text : String) (oldTree : Option Nat)
  | create (tree : Nat)
  | release (tree : Nat)
  | parseDone (uri : String) (tree : Nat) (version : Nat)
deriving Repr, DecidableEq

/-- State of one `Trees` instance: the LRU cache (front = most recently
used), the next fresh tree handle, and the event trace so far. -/
structure TreesState where
  cache : List (String × Entry)
  nextTree : Nat
  trace : List Ev
deriving Repr, DecidableEq

/-- Modelled from the spec: `utils/lruMap.ts` is not under src. Lookup of
the first entry with the given key (JS `Map.get`), without recency update. -/
def findEntry : List (String × Entry) → String → Option Entry
  | [], _ => none
  | p :: rest, k => if p.1 = k then some p.2 else findEntry rest k

/-- Modelled from the spec: `utils/lruMap.ts` is not under src. Removal of
the first entry with the given key (JS `Map.delete`); the other entries
keep their order. -/
def lruRemove : List (String × Entry) → String → List (String × Entry)
  | [], _ => []
  | p :: rest, k => if p.1 = k then rest else p :: lruRemove rest k

/-- Cache capacity (`size: 200` in the `LRUMap` construction in trees.ts). -/
def cacheCapacity : Nat := 200

/-- Modelled from the spec: `utils/lruMap.ts` is not under src.
Spec section 4.1: `set` inserts or replaces and updates recency; an
insertion that would exceed capacity first evicts the single
least-recently-used entry and passes it to the dispose hook. In trees.ts
the dispose hook releases the evicted entry's tree, so eviction is
returned as a `release` event. -/
def lruSet (c : List (String × Entry)) (k : String) (v : Entry) :
    List (String × Entry) × List Ev :=
  let c' := lruRemove c k
  if cacheCapacity ≤ c'.length then
    match c'.getLast? with
    | some victim => ((k, v) :: c'.dropLast, [Ev.release victim.2.tree])
    | none => ((k, v) :: c', [])
  else
    ((k, v) :: c', [])

/-- `Trees._asTsPoint`: converts an LSP position to a tree-sitter point. -/
def asTsPoint (position : Position) : TsPoint :=
  { row := position.line, column := position.character }

/-- `Trees._asEdits`: translates one change notification into one edit
batch, one `Edit` per change, in document order. The new end position is
re-derived from the new end offset in the changed (new) document. -/
def asEdits (event : TextDocumentChange2) : List Edit :=
  event.changes.map fun change =>
    { startPosition := asTsPoint change.range.start
      oldEndPosition := asTsPoint change.range.endPos
      newEndPosition :=
        asTsPoint (event.document.positionAt (change.rangeOffset + change.text.length))
      startIndex := change.rangeOffset
      oldEndIndex := change.rangeOffset + change.rangeLength
      newEndIndex := change.rangeOffset + change.text.length }

/-- `Trees._parse` (the synchronous body of `getParseTree` for an in-memory
document). Returns the new state and the returned tree handle, `none`
standing for `undefined`.

The branches mirror the source: cache hit returns the stored tree
(`_cache.get` updates recency); a missing entry triggers a fresh parse and
a `_cache.set`; an entry with a different version folds the pending edit
batches into the old tree in recorded order, clears them, reparses
incrementally with the old tree as reuse hint, releases the old tree and
stores the new tree and version in place; if the engine throws, the catch
block deletes the entry for this URI (the map's dispose hook releasing its
tree) and `undefined` is returned. -/
def Trees.parse (eng : ParserEngine) (s : TreesState) (doc : TextDocument) :
    TreesState × Option Nat :=
  match findEntry s.cache doc.uri with
  | some info =>
    if info.version = doc.version then
      ({ s with
          cache := (doc.uri, info) :: lruRemove s.cache doc.uri
          trace := s.trace ++ [Ev.hit doc.uri info.tree] },
       some info.tree)
    else
      let oldTree := info.tree
      let deltas := info.edits.flatten
      let editEvs := deltas.map (Ev.editTree oldTree)
      if eng.ok doc.text then
        let t := s.nextTree
        ({ cache := (doc.uri, ⟨doc.version, t, []⟩) :: lruRemove s.cache doc.uri
           nextTree := t + 1
           trace := s.trace ++ editEvs ++
             [Ev.parseCall doc.text (some oldTree), Ev.create t,
              Ev.release oldTree, Ev.parseDone doc.uri t doc.version] },
         some t)
      else
        ({ s with
            cache := lruRemove s.cache doc.uri
            trace := s.trace ++ editEvs ++
              [Ev.parseCall doc.text (some oldTree), Ev.release oldTree] },
         none)
  | none =>
    if eng.ok doc.text then
      let t := s.nextTree
      let set := lruSet s.cache doc.uri ⟨doc.version, t, []⟩
      ({ cache := set.1
         nextTree := t + 1
         trace := s.trace ++ [Ev.parseCall doc.text none, Ev.create t] ++ set.2 ++
           [Ev.parseDone doc.uri t doc.version] },
       some t)
    else
      ({ s with trace := s.trace ++ [Ev.parseCall doc.text none] }, none)

/-- The change listener installed in the `Trees` constructor: on a content
change, look up the entry for the changed document's URI (`_cache.get`,
which updates recency) and, when present, push the translated edit batch
onto its pending edits; a notification for an untracked URI is dropped. -/
def Trees.handleChange (s : TreesState) (e : TextDocumentChange2) : TreesState :=
  match findEntry s.cache e.document.uri with
  | some info =>
    { s with
        cache := (e.document.uri, { info with edits := info.edits ++ [asEdits e] }) ::
          lruRemove s.cache e.document.uri }
  | none => s

/-- `Trees.dispose`: releases every cached tree (the map itself is not
cleared by the source; dispose is the final operation of a run). -/
def Trees.dispose (s : TreesState) : TreesState :=
  { s with trace := s.trace ++ s.cache.map (fun p => Ev.release p.2.tree) }

/-- The empty initial state of a `Trees` instance. -/
def Trees.initState : TreesState := { cache := [], nextTree := 0, trace := [] }

/-- External stimuli of a run: a `getParseTree` call for an in-memory
document, or a content-change notification. -/
inductive Trees.Action where
  | getTree (doc : TextDocument)
  | change (e : TextDocumentChange2)

/-- One step of the state machine. -/
def Trees.step (eng : ParserEngine) (s : TreesState) : Trees.Action → TreesState
  | Trees.Action.getTree doc => (Trees.parse eng s doc).1
  | Trees.Action.change e => Trees.handleChange s e

/-- A whole run over a list of actions. -/
def Trees.run (eng : ParserEngine) (s : TreesState) : List Trees.Action → TreesState
  | [] => s
  | a :: rest => Trees.run eng (Trees.step eng s a) rest

/-- The tree handles currently owned by cache entries. -/
def cachedTrees (s : TreesState) : List Nat :=
  s.cache.map fun p => p.2.tree

/-- The tree handles an event reads (dereferences): a cache-hit return, an
in-place fold, an incremental reuse hint, or the tree handed to
parse-completed subscribers. -/
def Ev.usedTrees : Ev → List Nat
  | Ev.hit _ t => [t]
  | Ev.editTree t _ => [t]
  | Ev.parseCall _ (some t) => [t]
  | Ev.parseCall _ none => []
  | Ev.create _ => []
  | Ev.release _ => []
  | Ev.parseDone _ t _ => [t]

/-- Trace scanner: processes events in order, accumulating released
handles; fails (`none`) on a double release or on any event that reads an
already-released handle. -/
def scanRel : List Nat → List Ev → Option (List Nat)
  | rel, [] => some rel
  | rel, Ev.release t :: rest =>
    if t ∈ rel then none else scanRel (t :: rel) rest
  | rel, ev :: rest =>
    if ev.usedTrees.any (fun t => t ∈ rel) then none else scanRel rel rest

/-- Number of `create` events for a handle in a trace. -/
def createCount (T : List Ev) (id : Nat) : Nat :=
  T.countP fun e => e = Ev.create id

/-- Number of `release` events for a handle in a trace. -/
def releaseCount (T : List Ev) (id : Nat) : Nat :=
  T.countP fun e => e = Ev.release id

/-- A syntax-tree node (`Parser.SyntaxNode`): its source text and its
start and end points. -/
structure SyntaxNode where
  text : String
  startPosition : TsPoint
  endPosition : TsPoint
deriving Repr, DecidableEq

/-- A query capture (`Parser.QueryCapture`): the capture name from the
pattern and the captured node. -/
structure Capture where
  name : String
  node : SyntaxNode
deriving Repr, DecidableEq

/-- The compiled structural query (`query()` in globals.ts, compiled once by
`parserQuery` and cached). Modelled from the spec: `utils/parserQuery.ts`
is not under src; spec section 4.4 describes it as an immutable compiled
pattern value whose `captures` walks a node deterministically, returning
captures in document order. -/
structure QueryEngine where
  captures : SyntaxNode → List Capture

/-- The pattern-set source literal of globals.ts. -/
def globalsQuerySource : String :=
  "\n(function_definition name: (function_name) @function)\n(global_var_declaration name: (identifier) @globalVar)\n(constant_declaration name: (identifier) @const)\n"

/-- Characters allowed in a capture name after `@` in a tree-sitter pattern. -/
def isIdentChar (c : Char) : Bool :=
  c.isAlphanum || c = '_'

/-- Collects the capture names (the `@name` occurrences) of a pattern
source, in order; the second argument holds the partial name while one is
being read. -/
def captureScan : List Char → Option (List Char) → List String
  | [], none => []
  | [], some acc => [String.mk acc.reverse]
  | c :: rest, none =>
    if c = '@' then captureScan rest (some []) else captureScan rest none
  | c :: rest, some acc =>
    if isIdentChar c then captureScan rest (some (c :: acc))
    else String.mk acc.reverse :: captureScan rest none

/-- The capture names of a pattern source. -/
def captureNames (s : String) : List String :=
  captureScan s.toList none

/-- A well-formed compiled query for a pattern source: every capture it ever
returns is tagged with one of the pattern's capture names (the tree-sitter
query contract). -/
def CapturesOk (src : String) (eng : QueryEngine) : Prop :=
  ∀ n c, c ∈ eng.captures n → c.name ∈ captureNames src

/-- Modelled from the spec: `utils/position.ts` is not under src. Spec
section 3: a match's source range is the matched node's start/end
line+column, derived from the node itself. -/
def asLspRange (n : SyntaxNode) : Range :=
  { start := { line := n.startPosition.row, character := n.startPosition.column }
    endPos := { line := n.endPosition.row, character := n.endPosition.column } }

/-- A query result record, as built in `queryGlobals`. -/
structure QueryMatch where
  text : String
  type : String
  range : Range
  node : SyntaxNode
deriving Repr, DecidableEq

/-- The per-capture mapping applied in `queryGlobals`: text and range come
from the captured node, the type is the capture name. -/
def matchOfCapture (a : Capture) : QueryMatch :=
  { text := a.node.text, type := a.name, range := asLspRange a.node, node := a.node }

/-- `queryGlobals` (globals.ts): runs the compiled query's `captures` on the
node and maps each capture to a `QueryMatch`. -/
def queryGlobals (eng : QueryEngine) (node : SyntaxNode) : List QueryMatch :=
  (eng.captures node).map matchOfCapture

example :
    (Trees.parse ⟨fun _ => true⟩ Trees.initState
      ⟨"a.tolk", 1, "fun main() {}", fun _ => ⟨0, 0⟩⟩).2 = some 0 := by
  decide

example :
    (Trees.parse ⟨fun _ => true⟩ Trees.initState
      ⟨"a.tolk", 1, "fun main() {}", fun _ => ⟨0, 0⟩⟩).1.trace =
    [Ev.parseCall "fun main() {}" none, Ev.create 0,
     Ev.parseDone "a.tolk" 0 1] := by
  decide

example : captureNames globalsQuerySource = ["function", "globalVar", "const"] := by
  decide

/-! ### Lemmas about the cache association list -/

theorem findEntry_lruRemove_ne (c : List (String × Entry)) (k u : String) (h : u ≠ k) :
    findEntry (lruRemove c k) u = findEntry c u := by
  have hku : ¬(k = u) := fun hs => h hs.symm
  induction c with
  | nil => rfl
  | cons p rest ih =>
    by_cases hk : p.1 = k
    · have hpu : ¬(p.1 = u) := by rw [hk]; exact hku
      simp [lruRemove, hk, findEntry, hpu, hku]
    · by_cases hu : p.1 = u
      · simp [lruRemove, hk, findEntry, hu, h]
      · simp [lruRemove, hk, findEntry, hu, ih]

theorem findEntry_eq_none_of_not_mem (c : List (String × Entry)) (k : String)
    (h : k ∉ c.map Prod.fst) : findEntry c k = none := by
  induction c with
  | nil => rfl
  | cons p rest ih =>
    simp only [List.map_cons, List.mem_cons] at h
    push_neg at h
    have hp : p.1 ≠ k := fun hk => h.1 hk.symm
    simp [findEntry, hp, ih h.2]

theorem lruRemove_eq_of_findEntry_none (c : List (String × Entry)) (k : String)
    (h : findEntry c k = none) : lruRemove c k = c := by
  induction c with
  | nil => rfl
  | cons p rest ih =>
    by_cases hk : p.1 = k
    · simp [findEntry, hk] at h
    · simp only [findEntry, hk, if_neg hk] at h
      simp [lruRemove, hk, ih h]

theorem perm_cons_lruRemove (c : List (String × Entry)) (k : String) (e : Entry)
    (h : findEntry c k = some e) : ((k, e) :: lruRemove c k).Perm c := by
  induction c with
  | nil => simp [findEntry] at h
  | cons p rest ih =>
    by_cases hk : p.1 = k
    · have he : p.2 = e := by simpa [findEntry, hk] using h
      have hp : p = (k, e) := by
        cases p
        simp only at hk he
        rw [hk, he]
      have hrm : lruRemove (p :: rest) k = rest := by simp [lruRemove, hk]
      rw [hrm, hp]
    · have hr : findEntry rest k = some e := by simpa [findEntry, hk] using h
      have hrm : lruRemove (p :: rest) k = p :: lruRemove rest k := by
        simp [lruRemove, hk]
      rw [hrm]
      exact (List.Perm.swap p (k, e) (lruRemove rest k)).trans ((ih hr).cons p)

theorem findEntry_lruRemove_self (c : List (String × Entry)) (k : String)
    (hnd : (c.map Prod.fst).Nodup) : findEntry (lruRemove c k) k = none := by
  induction c with
  | nil => rfl
  | cons p rest ih =>
    simp only [List.map_cons, List.nodup_cons] at hnd
    by_cases hk : p.1 = k
    · have : k ∉ rest.map Prod.fst := by rw [← hk]; exact hnd.1
      simp [lruRemove, hk, findEntry_eq_none_of_not_mem rest k this]
    · simp [lruRemove, hk, findEntry, ih hnd.2]

theorem drop_self_append (T E : List Ev) : (T ++ E).drop T.length = E :=
  List.drop_left T E

/-! ### Claim theorems about single calls -/

/-- Claim C4: when a cache entry for the document's URI exists and its
stored version equals the document's version, `getTreeForDocument` returns
the identical tree reference held by the entry and performs no parse work:
no engine invocation, no new tree, only a cache-hit read is recorded. -/
theorem Trees.parse_cacheHit_returns_same_tree (eng : ParserEngine) (s : TreesState)
    (doc : TextDocument) (e : Entry)
    (hfind : findEntry s.cache doc.uri = some e) (hver : e.version = doc.version) :
    (Trees.parse eng s doc).2 = some e.tree ∧
    (Trees.parse eng s doc).1.trace = s.trace ++ [Ev.hit doc.uri e.tree] ∧
    (Trees.parse eng s doc).1.nextTree = s.nextTree := by
  simp [Trees.parse, hfind, hver]

/-- Claim C9: on a version-equal cache hit, `getTreeForDocument` fires no
parse-completed event and leaves every URI's entry (tree, version, pending
edits) unmodified; the cache changes only as a permutation (recency). -/
theorem Trees.parse_cacheHit_frame (eng : ParserEngine) (s : TreesState)
    (doc : TextDocument) (e : Entry)
    (hfind : findEntry s.cache doc.uri = some e) (hver : e.version = doc.version) :
    ((Trees.parse eng s doc).1.cache).Perm s.cache ∧
    (∀ u, findEntry (Trees.parse eng s doc).1.cache u = findEntry s.cache u) ∧
    (∀ u t v, Ev.parseDone u t v ∉
      ((Trees.parse eng s doc).1.trace).drop s.trace.length) ∧
    (Trees.parse eng s doc).2 = some e.tree := by
  have hcache : (Trees.parse eng s doc).1.cache =
      (doc.uri, e) :: lruRemove s.cache doc.uri := by
    simp [Trees.parse, hfind, hver]
  have htrace : (Trees.parse eng s doc).1.trace =
      s.trace ++ [Ev.hit doc.uri e.tree] := by
    simp [Trees.parse, hfind, hver]
  refine ⟨?_, ?_, ?_, ?_⟩
  · rw [hcache]; exact perm_cons_lruRemove s.cache doc.uri e hfind
  · intro u
    rw [hcache]
    by_cases hu : u = doc.uri
    · subst hu; simp [findEntry, hfind]
    · have hne : (doc.uri, e).1 ≠ u := fun hs => hu hs.symm
      simp only [findEntry, if_neg hne]
      exact findEntry_lruRemove_ne s.cache doc.uri u hu
  · intro u t v
    rw [htrace, drop_self_append]
    simp
  · simp [Trees.parse, hfind, hver]

/-- Claim C5: when no cache entry exists for the document's URI,
`getTreeForDocument` invokes the engine on the full text with no reuse
hint, creates a fresh tree, stores an entry with the document's version,
that tree and no pending edits, fires parse-completed last, and returns
the fresh tree; the only other events are eviction releases from the
bounded cache insertion. -/
theorem Trees.parse_fresh_spec (eng : ParserEngine) (s : TreesState)
    (doc : TextDocument)
    (hfind : findEntry s.cache doc.uri = none) (hok : eng.ok doc.text = true) :
    (Trees.parse eng s doc).2 = some s.nextTree ∧
    findEntry (Trees.parse eng s doc).1.cache doc.uri =
      some { version := doc.version, tree := s.nextTree, edits := [] } ∧
    ∃ evict, (∀ ev ∈ evict, ∃ id, ev = Ev.release id) ∧
      (Trees.parse eng s doc).1.trace =
        s.trace ++ [Ev.parseCall doc.text none, Ev.create s.nextTree] ++ evict ++
          [Ev.parseDone doc.uri s.nextTree doc.version] := by
  refine ⟨by simp [Trees.parse, hfind, hok], ?_, ?_⟩
  · simp only [Trees.parse, hfind, hok, if_true]
    unfold lruSet
    by_cases hcap : cacheCapacity ≤ (lruRemove s.cache doc.uri).length
    · simp only [hcap, if_true]
      cases hlast : (lruRemove s.cache doc.uri).getLast? with
      | none => simp [findEntry]
      | some victim => simp [findEntry]
    · simp [hcap, findEntry]
  · simp only [Trees.parse, hfind, hok, if_true]
    unfold lruSet
    by_cases hcap : cacheCapacity ≤ (lruRemove s.cache doc.uri).length
    · simp only [hcap, if_true]
      cases hlast : (lruRemove s.cache doc.uri).getLast? with
      | none => exact ⟨[], by simp⟩
      | some victim =>
        exact ⟨[Ev.release victim.2.tree], by simp⟩
    · simp only [hcap, if_false]
      exact ⟨[], by simp⟩

/-- Claim C1: when a cache entry exists whose version differs from the
document's, `getTreeForDocument` folds every pending edit into the old
tree in recorded order (the flattening of the batches), clears the pending
edits, invokes the engine incrementally with the current full text and the
folded old tree as reuse hint, creates the new tree, releases the old one,
stores the new tree and version in the same URI's entry, fires
parse-completed last, and returns the new tree. -/
theorem Trees.parse_incremental_spec (eng : ParserEngine) (s : TreesState)
    (doc : TextDocument) (e : Entry)
    (hfind : findEntry s.cache doc.uri = some e) (hver : e.version ≠ doc.version)
    (hok : eng.ok doc.text = true) :
    (Trees.parse eng s doc).2 = some s.nextTree ∧
    findEntry (Trees.parse eng s doc).1.cache doc.uri =
      some { version := doc.version, tree := s.nextTree, edits := [] } ∧
    (Trees.parse eng s doc).1.trace =
      s.trace ++ e.edits.flatten.map (Ev.editTree e.tree) ++
        [Ev.parseCall doc.text (some e.tree), Ev.create s.nextTree,
         Ev.release e.tree, Ev.parseDone doc.uri s.nextTree doc.version] := by
  refine ⟨by simp [Trees.parse, hfind, hver, hok], ?_, by simp [Trees.parse, hfind, hver, hok]⟩
  simp [Trees.parse, hfind, hver, hok, findEntry]

/-- Claim C2: if the engine throws during `getTreeForDocument` (fresh or
incremental path, i.e. there was no version-equal cache hit), the entry
for this URI is removed entirely, the call returns absent, and every other
URI's entry is unchanged. -/
theorem Trees.parse_engineFailure_evicts (eng : ParserEngine) (s : TreesState)
    (doc : TextDocument)
    (hnd : (s.cache.map Prod.fst).Nodup)
    (hok : eng.ok doc.text = false)
    (hmiss : ∀ e, findEntry s.cache doc.uri = some e → e.version ≠ doc.version) :
    (Trees.parse eng s doc).2 = none ∧
    findEntry (Trees.parse eng s doc).1.cache doc.uri = none ∧
    ∀ u, u ≠ doc.uri → findEntry (Trees.parse eng s doc).1.cache u = findEntry s.cache u := by
  cases hc : findEntry s.cache doc.uri with
  | none =>
    refine ⟨by simp [Trees.parse, hc, hok], ?_, ?_⟩
    · simp [Trees.parse, hc, hok]
    · intro u _
      simp [Trees.parse, hc, hok]
  | some e =>
    have hne := hmiss e hc
    refine ⟨by simp [Trees.parse, hc, hne, hok], ?_, ?_⟩
    · have hcache : (Trees.parse eng s doc).1.cache = lruRemove s.cache doc.uri := by
        simp [Trees.parse, hc, hne, hok]
      rw [hcache]
      exact findEntry_lruRemove_self s.cache doc.uri hnd
    · intro u hu
      have hcache : (Trees.parse eng s doc).1.cache = lruRemove s.cache doc.uri := by
        simp [Trees.parse, hc, hne, hok]
      rw [hcache]
      exact findEntry_lruRemove_ne s.cache doc.uri u hu

/-- Claim C7: every parse-completed event fired by a `getTreeForDocument`
call carries a tree and version that the cache entry for that URI already
holds when the call returns; the event is never fired before the cache
update it reports. -/
theorem Trees.parseDone_consistent_with_cache (eng : ParserEngine) (s : TreesState)
    (doc : TextDocument) (u : String) (t v : Nat)
    (h : Ev.parseDone u t v ∈ ((Trees.parse eng s doc).1.trace).drop s.trace.length) :
    ∃ e, findEntry (Trees.parse eng s doc).1.cache u = some e ∧
      e.tree = t ∧ e.version = v := by
  cases hc : findEntry s.cache doc.uri with
  | some info =>
    by_cases hver : info.version = doc.version
    · have htrace : (Trees.parse eng s doc).1.trace =
          s.trace ++ [Ev.hit doc.uri info.tree] := by
        simp [Trees.parse, hc, hver]
      rw [htrace, drop_self_append] at h
      simp at h
    · by_cases hok : eng.ok doc.text = true
      · have htrace : (Trees.parse eng s doc).1.trace =
            s.trace ++ (info.edits.flatten.map (Ev.editTree info.tree) ++
              [Ev.parseCall doc.text (some info.tree), Ev.create s.nextTree,
               Ev.release info.tree, Ev.parseDone doc.uri s.nextTree doc.version]) := by
          simp [Trees.parse, hc, hver, hok]
        rw [htrace, drop_self_append] at h
        simp only [List.mem_append] at h
        rcases h with h | h
        · simp at h
        · simp at h
          obtain ⟨h1, h2, h3⟩ := h
          subst h1; subst h2; subst h3
          exact ⟨⟨doc.version, s.nextTree, []⟩,
            by simp [Trees.parse, hc, hver, hok, findEntry], rfl, rfl⟩
      · have hokf : eng.ok doc.text = false := by
          cases hb : eng.ok doc.text with
          | true => exact absurd hb hok
          | false => rfl
        have htrace : (Trees.parse eng s doc).1.trace =
            s.trace ++ (info.edits.flatten.map (Ev.editTree info.tree) ++
              [Ev.parseCall doc.text (some info.tree), Ev.release info.tree]) := by
          simp [Trees.parse, hc, hver, hokf]
        rw [htrace, drop_self_append] at h
        simp at h
  | none =>
    by_cases hok : eng.ok doc.text = true
    · have htrace : (Trees.parse eng s doc).1.trace =
          s.trace ++ ([Ev.parseCall doc.text none, Ev.create s.nextTree] ++
            (lruSet s.cache doc.uri ⟨doc.version, s.nextTree, []⟩).2 ++
            [Ev.parseDone doc.uri s.nextTree doc.version]) := by
        simp [Trees.parse, hc, hok]
      have hev : ∀ ev ∈ (lruSet s.cache doc.uri
          (⟨doc.version, s.nextTree, []⟩ : Entry)).2, ∃ id, ev = Ev.release id := by
        unfold lruSet
        by_cases hcap : cacheCapacity ≤ (lruRemove s.cache doc.uri).length
        · simp only [hcap, if_true]
          cases hlast : (lruRemove s.cache doc.uri).getLast? with
          | none => simp
          | some victim => simp
        · simp [hcap]
      rw [htrace, drop_self_append] at h
      rcases List.mem_append.mp h with h' | h'
      · rcases List.mem_append.mp h' with h2 | h2
        · simp at h2
        · rcases hev _ h2 with ⟨id, hid⟩
          cases hid
      · simp at h'
        obtain ⟨h1, h2, h3⟩ := h'
        subst h1; subst h2; subst h3
        refine ⟨⟨doc.version, s.nextTree, []⟩, ?_, rfl, rfl⟩
        have hcache : (Trees.parse eng s doc).1.cache =
            (lruSet s.cache doc.uri ⟨doc.version, s.nextTree, []⟩).1 := by
          simp [Trees.parse, hc, hok]
        rw [hcache]
        unfold lruSet
        by_cases hcap : cacheCapacity ≤ (lruRemove s.cache doc.uri).length
        · simp only [hcap, if_true]
          cases hlast : (lruRemove s.cache doc.uri).getLast? with
          | none => simp [findEntry]
          | some victim => simp [findEntry]
        · simp [hcap, findEntry]
    · have hokf : eng.ok doc.text = false := by
        cases hb : eng.ok doc.text with
        | true => exact absurd hb hok
        | false => rfl
      have htrace : (Trees.parse eng s doc).1.trace =
          s.trace ++ [Ev.parseCall doc.text none] := by
        simp [Trees.parse, hc, hokf]
      rw [htrace, drop_self_append] at h
      simp at h

/-- Claim C6: a change notification for a tracked URI appends exactly one
edit batch — one `Edit` per change, with start offset the change's range
offset, old end offset range offset plus removed length, new end offset
range offset plus replacement length, and the new end position re-derived
from that offset in the new document — at the end of that entry's pending
edits; a notification for an untracked URI changes nothing; no event fires
and no other URI's entry is touched. -/
theorem Trees.onChange_spec (s : TreesState) (ev : TextDocumentChange2) :
    (∀ e, findEntry s.cache ev.document.uri = some e →
      findEntry (Trees.handleChange s ev).cache ev.document.uri =
        some { version := e.version, tree := e.tree, edits := e.edits ++ [asEdits ev] }) ∧
    (findEntry s.cache ev.document.uri = none → Trees.handleChange s ev = s) ∧
    (∀ u, u ≠ ev.document.uri →
      findEntry (Trees.handleChange s ev).cache u = findEntry s.cache u) ∧
    (Trees.handleChange s ev).trace = s.trace ∧
    (∀ i : Nat, (asEdits ev)[i]? = (ev.changes[i]?).map fun change =>
      ({ startPosition := asTsPoint change.range.start
         oldEndPosition := asTsPoint change.range.endPos
         newEndPosition :=
           asTsPoint (ev.document.positionAt (change.rangeOffset + change.text.length))
         startIndex := change.rangeOffset
         oldEndIndex := change.rangeOffset + change.rangeLength
         newEndIndex := change.rangeOffset + change.text.length } : Edit)) := by
  refine ⟨?_, ?_, ?_, ?_, ?_⟩
  · intro e he
    simp [Trees.handleChange, he, findEntry]
  · intro hnone
    simp [Trees.handleChange, hnone]
  · intro u hu
    cases hc : findEntry s.cache ev.document.uri with
    | some e =>
      have hne : ¬(ev.document.uri = u) := fun hs => hu hs.symm
      simp only [Trees.handleChange, hc, findEntry, if_neg hne]
      exact findEntry_lruRemove_ne s.cache ev.document.uri u hu
    | none => simp [Trees.handleChange, hc]
  · cases hc : findEntry s.cache ev.document.uri with
    | some e => simp [Trees.handleChange, hc]
    | none => simp [Trees.handleChange, hc]
  · intro i
    simp [asEdits]

/-- Claim C8: `queryGlobals` is deterministic — its result is a function of
the capture sequence alone, two executions over the same captures yield
identical match sequences, and the matches come in exactly the captures'
(document) order, one match per capture. -/
theorem queryGlobals_deterministic (eng eng' : QueryEngine) (n n' : SyntaxNode)
    (h : eng.captures n = eng'.captures n') :
    queryGlobals eng n = queryGlobals eng' n' ∧
    (queryGlobals eng n).length = (eng.captures n).length ∧
    ∀ i : Nat, (queryGlobals eng n)[i]? = ((eng.captures n)[i]?).map matchOfCapture := by
  refine ⟨by simp [queryGlobals, h], by simp [queryGlobals], fun i => ?_⟩
  simp [queryGlobals]

/-- Claim C10: every match produced by `queryGlobals` has a capture type
among exactly "function", "globalVar" and "const" (the capture names of
the pattern literal), and its text and range are derived from the captured
node itself. -/
theorem queryGlobals_capture_fields (eng : QueryEngine) (n : SyntaxNode)
    (hok : CapturesOk globalsQuerySource eng) (m : QueryMatch)
    (hm : m ∈ queryGlobals eng n) :
    (m.type = "function" ∨ m.type = "globalVar" ∨ m.type = "const") ∧
    m.text = m.node.text ∧ m.range = asLspRange m.node := by
  rcases List.mem_map.mp hm with ⟨c, hc, rfl⟩
  have hname := hok n c hc
  have hnames : captureNames globalsQuerySource = ["function", "globalVar", "const"] := by
    decide
  rw [hnames] at hname
  simp only [List.mem_cons, List.mem_singleton, List.not_mem_nil, or_false] at hname
  exact ⟨by simpa [matchOfCapture] using hname, rfl, rfl⟩

/-! ### Trace accounting lemmas for the resource-lifetime invariant -/

theorem createCount_append (T E : List Ev) (id : Nat) :
    createCount (T ++ E) id = createCount T id + createCount E id := by
  simp [createCount, List.countP_append]

theorem releaseCount_append (T E : List Ev) (id : Nat) :
    releaseCount (T ++ E) id = releaseCount T id + releaseCount E id := by
  simp [releaseCount, List.countP_append]

theorem createCount_editEvs (deltas : List Edit) (old id : Nat) :
    createCount (deltas.map (Ev.editTree old)) id = 0 := by
  rw [createCount, List.countP_eq_zero]
  intro a ha
  rcases List.mem_map.mp ha with ⟨d, _, rfl⟩
  simp

theorem releaseCount_editEvs (deltas : List Edit) (old id : Nat) :
    releaseCount (deltas.map (Ev.editTree old)) id = 0 := by
  rw [releaseCount, List.countP_eq_zero]
  intro a ha
  rcases List.mem_map.mp ha with ⟨d, _, rfl⟩
  simp

theorem releaseCount_releaseMap (ts : List Nat) (id : Nat) :
    releaseCount (ts.map Ev.release) id = ts.count id := by
  induction ts with
  | nil => rfl
  | cons t rest ih =>
    by_cases ht : t = id
    · simp [releaseCount, List.countP_cons, List.count_cons, ht] at ih ⊢
      omega
    · have hne : ¬(id = t) := fun hs => ht hs.symm
      simp [releaseCount, List.countP_cons, List.count_cons, ht, hne] at ih ⊢
      omega

theorem createCount_releaseMap (ts : List Nat) (id : Nat) :
    createCount (ts.map Ev.release) id = 0 := by
  rw [createCount, List.countP_eq_zero]
  intro a ha
  rcases List.mem_map.mp ha with ⟨d, _, rfl⟩
  simp

theorem scanRel_cons_release (r : List Nat) (t : Nat) (rest : List Ev) :
    scanRel r (Ev.release t :: rest) =
      if t ∈ r then none else scanRel (t :: r) rest := rfl

theorem scanRel_cons_hit (r : List Nat) (u : String) (t : Nat) (rest : List Ev) :
    scanRel r (Ev.hit u t :: rest) =
      if t ∈ r then none else scanRel r rest := by
  by_cases ht : t ∈ r
  · simp [scanRel, Ev.usedTrees, ht]
  · simp [scanRel, Ev.usedTrees, ht]

theorem scanRel_cons_editTree (r : List Nat) (t : Nat) (d : Edit) (rest : List Ev) :
    scanRel r (Ev.editTree t d :: rest) =
      if t ∈ r then none else scanRel r rest := by
  by_cases ht : t ∈ r
  · simp [scanRel, Ev.usedTrees, ht]
  · simp [scanRel, Ev.usedTrees, ht]

theorem scanRel_cons_parseCall_some (r : List Nat) (x : String) (t : Nat) (rest : List Ev) :
    scanRel r (Ev.parseCall x (some t) :: rest) =
      if t ∈ r then none else scanRel r rest := by
  by_cases ht : t ∈ r
  · simp [scanRel, Ev.usedTrees, ht]
  · simp [scanRel, Ev.usedTrees, ht]

theorem scanRel_cons_parseCall_none (r : List Nat) (x : String) (rest : List Ev) :
    scanRel r (Ev.parseCall x none :: rest) = scanRel r rest := by
  simp [scanRel, Ev.usedTrees]

theorem scanRel_cons_create (r : List Nat) (t : Nat) (rest : List Ev) :
    scanRel r (Ev.create t :: rest) = scanRel r rest := by
  simp [scanRel, Ev.usedTrees]

theorem scanRel_cons_parseDone (r : List Nat) (u : String) (t v : Nat) (rest : List Ev) :
    scanRel r (Ev.parseDone u t v :: rest) =
      if t ∈ r then none else scanRel r rest := by
  by_cases ht : t ∈ r
  · simp [scanRel, Ev.usedTrees, ht]
  · simp [scanRel, Ev.usedTrees, ht]

theorem scanRel_append (r : List Nat) (T E : List Ev) :
    scanRel r (T ++ E) = (scanRel r T).bind fun r' => scanRel r' E := by
  induction T generalizing r with
  | nil => simp [scanRel]
  | cons ev rest ih =>
    cases ev with
    | hit u t =>
      rw [List.cons_append, scanRel_cons_hit, scanRel_cons_hit]
      by_cases ht : t ∈ r
      · simp [ht]
      · simp [ht, ih]
    | editTree t d =>
      rw [List.cons_append, scanRel_cons_editTree, scanRel_cons_editTree]
      by_cases ht : t ∈ r
      · simp [ht]
      · simp [ht, ih]
    | parseCall x old =>
      cases old with
      | some t =>
        rw [List.cons_append, scanRel_cons_parseCall_some, scanRel_cons_parseCall_some]
        by_cases ht : t ∈ r
        · simp [ht]
        · simp [ht, ih]
      | none =>
        rw [List.cons_append, scanRel_cons_parseCall_none, scanRel_cons_parseCall_none, ih]
    | create t =>
      rw [List.cons_append, scanRel_cons_create, scanRel_cons_create, ih]
    | release t =>
      rw [List.cons_append, scanRel_cons_release, scanRel_cons_release]
      by_cases ht : t ∈ r
      · simp [ht]
      · simp [ht, ih]
    | parseDone u t v =>
      rw [List.cons_append, scanRel_cons_parseDone, scanRel_cons_parseDone]
      by_cases ht : t ∈ r
      · simp [ht]
      · simp [ht, ih]

theorem scanRel_editEvs (r : List Nat) (old : Nat) (deltas : List Edit)
    (h : old ∉ r) : scanRel r (deltas.map (Ev.editTree old)) = some r := by
  induction deltas with
  | nil => rfl
  | cons d rest ih =>
    rw [List.map_cons, scanRel_cons_editTree, if_neg h]
    exact ih

theorem scanRel_releaseMap (r : List Nat) (ts : List Nat)
    (hnd : ts.Nodup) (h : ∀ t ∈ ts, t ∉ r) :
    ∃ r', scanRel r (ts.map Ev.release) = some r' ∧
      ∀ x, x ∈ r' ↔ x ∈ ts ∨ x ∈ r := by
  induction ts generalizing r with
  | nil => exact ⟨r, rfl, by simp⟩
  | cons t rest ih =>
    rw [List.map_cons, scanRel_cons_release, if_neg (h t (List.mem_cons_self t rest))]
    have hnd' : rest.Nodup := (List.nodup_cons.mp hnd).2
    have ht_rest : t ∉ rest := (List.nodup_cons.mp hnd).1
    have h' : ∀ x ∈ rest, x ∉ t :: r := by
      intro x hx
      simp only [List.mem_cons]
      push_neg
      exact ⟨fun hxt => ht_rest (hxt ▸ hx), h x (List.mem_cons_of_mem t hx)⟩
    rcases ih (t :: r) hnd' h' with ⟨r', hr', hmem⟩
    refine ⟨r', hr', fun x => ?_⟩
    rw [hmem x]
    simp only [List.mem_cons]
    tauto

theorem not_mem_keys_of_findEntry_none (c : List (String × Entry)) (k : String)
    (h : findEntry c k = none) : k ∉ c.map Prod.fst := by
  induction c with
  | nil => simp
  | cons p rest ih =>
    by_cases hk : p.1 = k
    · simp [findEntry, hk] at h
    · simp only [findEntry, if_neg hk] at h
      simp only [List.map_cons, List.mem_cons]
      push_neg
      exact ⟨fun hs => hk hs.symm, ih h⟩

theorem mem_of_findEntry (c : List (String × Entry)) (k : String) (e : Entry)
    (h : findEntry c k = some e) : (k, e) ∈ c :=
  (perm_cons_lruRemove c k e h).subset (List.mem_cons_self _ _)

/-- The resource-lifetime invariant of a reachable `Trees` state: cache keys
and cached tree handles are duplicate-free, cached handles are below the
allocation counter and unreleased, the trace scanner accepts the trace so
far, every created handle is either still cached or released exactly once,
and handles at or above the counter are untouched. -/
structure TreesInv (s : TreesState) : Prop where
  keys_nodup : (s.cache.map Prod.fst).Nodup
  trees_nodup : (cachedTrees s).Nodup
  trees_lt : ∀ t ∈ cachedTrees s, t < s.nextTree
  scan : ∃ R, scanRel [] s.trace = some R ∧ ∀ x, x ∈ R ↔ releaseCount s.trace x ≠ 0
  cached_unreleased : ∀ t ∈ cachedTrees s, releaseCount s.trace t = 0
  conserve : ∀ t, createCount s.trace t =
    releaseCount s.trace t + (if t ∈ cachedTrees s then 1 else 0)
  release_le : ∀ t, releaseCount s.trace t ≤ 1
  fresh_zero : ∀ t, s.nextTree ≤ t → createCount s.trace t = 0 ∧ releaseCount s.trace t = 0

theorem inv_init : TreesInv Trees.initState := by
  refine ⟨?_, ?_, ?_, ⟨[], rfl, ?_⟩, ?_, ?_, ?_, ?_⟩ <;>
    simp [Trees.initState, cachedTrees, releaseCount, createCount]

theorem conserve_of_perm_counts {T T' : List Ev} {l l' : List Nat} {t : Nat}
    (hperm : l.Perm l') (hC : createCount T' t = createCount T t)
    (hR : releaseCount T' t = releaseCount T t)
    (h : createCount T t = releaseCount T t + (if t ∈ l' then 1 else 0)) :
    createCount T' t = releaseCount T' t + (if t ∈ l then 1 else 0) := by
  rw [hC, hR, if_congr hperm.mem_iff rfl rfl]
  exact h

theorem inv_handleChange (s : TreesState) (e : TextDocumentChange2)
    (h : TreesInv s) : TreesInv (Trees.handleChange s e) := by
  obtain ⟨R, hscan, hmemR⟩ := h.scan
  cases hc : findEntry s.cache e.document.uri with
  | none => simpa [Trees.handleChange, hc] using h
  | some info =>
    have hperm : ((e.document.uri, info) :: lruRemove s.cache e.document.uri).Perm s.cache :=
      perm_cons_lruRemove s.cache e.document.uri info hc
    have hpermT : (info.tree ::
        (lruRemove s.cache e.document.uri).map (fun p => p.2.tree)).Perm (cachedTrees s) := by
      simpa [cachedTrees] using hperm.map (fun p => p.2.tree)
    have hpermK : (e.document.uri ::
        (lruRemove s.cache e.document.uri).map Prod.fst).Perm (s.cache.map Prod.fst) := by
      simpa using hperm.map Prod.fst
    have hs1 : Trees.handleChange s e =
        { s with cache :=
            (e.document.uri, Entry.mk info.version info.tree (info.edits ++ [asEdits e])) ::
              lruRemove s.cache e.document.uri } := by
      simp [Trees.handleChange, hc]
    rw [hs1]
    refine ⟨?_, ?_, ?_, ⟨R, hscan, hmemR⟩, ?_, ?_, h.release_le, h.fresh_zero⟩
    · exact hpermK.nodup_iff.mpr h.keys_nodup
    · exact hpermT.nodup_iff.mpr h.trees_nodup
    · intro t ht
      exact h.trees_lt t (hpermT.subset ht)
    · intro t ht
      exact h.cached_unreleased t (hpermT.subset ht)
    · intro t
      exact conserve_of_perm_counts hpermT rfl rfl (h.conserve t)

theorem createCount_hitList (u : String) (tr x : Nat) :
    createCount [Ev.hit u tr] x = 0 := by
  simp [createCount, List.countP_cons]

theorem releaseCount_hitList (u : String) (tr x : Nat) :
    releaseCount [Ev.hit u tr] x = 0 := by
  simp [releaseCount, List.countP_cons]

theorem createCount_incrList (txt : String) (old t : Nat) (u : String) (v x : Nat) :
    createCount [Ev.parseCall txt (some old), Ev.create t, Ev.release old,
      Ev.parseDone u t v] x = if t = x then 1 else 0 := by
  by_cases h : t = x
  · simp [createCount, List.countP_cons, h]
  · simp [createCount, List.countP_cons, h]

theorem releaseCount_incrList (txt : String) (old t : Nat) (u : String) (v x : Nat) :
    releaseCount [Ev.parseCall txt (some old), Ev.create t, Ev.release old,
      Ev.parseDone u t v] x = if old = x then 1 else 0 := by
  by_cases h : old = x
  · simp [releaseCount, List.countP_cons, h]
  · simp [releaseCount, List.countP_cons, h]

theorem createCount_failList (txt : String) (old x : Nat) :
    createCount [Ev.parseCall txt (some old), Ev.release old] x = 0 := by
  simp [createCount, List.countP_cons]

theorem releaseCount_failList (txt : String) (old x : Nat) :
    releaseCount [Ev.parseCall txt (some old), Ev.release old] x =
      if old = x then 1 else 0 := by
  by_cases h : old = x
  · simp [releaseCount, List.countP_cons, h]
  · simp [releaseCount, List.countP_cons, h]

theorem createCount_freshList (txt : String) (t x : Nat) :
    createCount [Ev.parseCall txt none, Ev.create t] x = if t = x then 1 else 0 := by
  by_cases h : t = x
  · simp [createCount, List.countP_cons, h]
  · simp [createCount, List.countP_cons, h]

theorem releaseCount_freshList (txt : String) (t x : Nat) :
    releaseCount [Ev.parseCall txt none, Ev.create t] x = 0 := by
  simp [releaseCount, List.countP_cons]

theorem createCount_doneList (u : String) (t v x : Nat) :
    createCount [Ev.parseDone u t v] x = 0 := by
  simp [createCount, List.countP_cons]

theorem releaseCount_doneList (u : String) (t v x : Nat) :
    releaseCount [Ev.parseDone u t v] x = 0 := by
  simp [releaseCount, List.countP_cons]

theorem createCount_relList (t x : Nat) :
    createCount [Ev.release t] x = 0 := by
  simp [createCount, List.countP_cons]

theorem releaseCount_relList (t x : Nat) :
    releaseCount [Ev.release t] x = if t = x then 1 else 0 := by
  by_cases h : t = x
  · simp [releaseCount, List.countP_cons, h]
  · simp [releaseCount, List.countP_cons, h]

theorem createCount_pcList (txt : String) (x : Nat) :
    createCount [Ev.parseCall txt none] x = 0 := by
  simp [createCount, List.countP_cons]

theorem releaseCount_pcList (txt : String) (x : Nat) :
    releaseCount [Ev.parseCall txt none] x = 0 := by
  simp [releaseCount, List.countP_cons]

theorem inv_parse (eng : ParserEngine) (s : TreesState) (doc : TextDocument)
    (h : TreesInv s) : TreesInv (Trees.parse eng s doc).1 := by
  obtain ⟨R, hscan, hmemR⟩ := h.scan
  cases hc : findEntry s.cache doc.uri with
  | some info =>
    have hperm : ((doc.uri, info) :: lruRemove s.cache doc.uri).Perm s.cache :=
      perm_cons_lruRemove s.cache doc.uri info hc
    have hpermT : (info.tree ::
        (lruRemove s.cache doc.uri).map (fun p => p.2.tree)).Perm (cachedTrees s) := by
      simpa [cachedTrees] using hperm.map (fun p => p.2.tree)
    have hpermK : (doc.uri ::
        (lruRemove s.cache doc.uri).map Prod.fst).Perm (s.cache.map Prod.fst) := by
      simpa using hperm.map Prod.fst
    have hold_mem : info.tree ∈ cachedTrees s := hpermT.subset (List.mem_cons_self _ _)
    have hold_rel0 : releaseCount s.trace info.tree = 0 :=
      h.cached_unreleased info.tree hold_mem
    have hold_notR : info.tree ∉ R := fun hx => (hmemR info.tree).mp hx hold_rel0
    have hold_lt : info.tree < s.nextTree := h.trees_lt info.tree hold_mem
    have hconsT : (info.tree ::
        (lruRemove s.cache doc.uri).map (fun p => p.2.tree)).Nodup :=
      hpermT.nodup_iff.mpr h.trees_nodup
    have hold_notin_rm : info.tree ∉ (lruRemove s.cache doc.uri).map (fun p => p.2.tree) :=
      (List.nodup_cons.mp hconsT).1
    have hrm_nodup : ((lruRemove s.cache doc.uri).map (fun p => p.2.tree)).Nodup :=
      (List.nodup_cons.mp hconsT).2
    have hrm_sub : ∀ x ∈ (lruRemove s.cache doc.uri).map (fun p => p.2.tree),
        x ∈ cachedTrees s := fun x hx => hpermT.subset (List.mem_cons_of_mem _ hx)
    have hnt_notR : s.nextTree ∉ R := fun hx =>
      (hmemR s.nextTree).mp hx (h.fresh_zero s.nextTree le_rfl).2
    by_cases hver : info.version = doc.version
    · -- path 1: version-equal cache hit
      have hs1 : (Trees.parse eng s doc).1 = { s with
          cache := (doc.uri, info) :: lruRemove s.cache doc.uri,
          trace := s.trace ++ [Ev.hit doc.uri info.tree] } := by
        simp [Trees.parse, hc, hver]
      rw [hs1]
      refine ⟨hpermK.nodup_iff.mpr h.keys_nodup, hpermT.nodup_iff.mpr h.trees_nodup,
        ?_, ?_, ?_, ?_, ?_, ?_⟩
      · intro t ht
        exact h.trees_lt t (hpermT.subset ht)
      · refine ⟨R, ?_, ?_⟩
        · rw [scanRel_append, hscan]
          show scanRel R [Ev.hit doc.uri info.tree] = some R
          rw [scanRel_cons_hit, if_neg hold_notR]
          rfl
        · intro x
          rw [releaseCount_append, releaseCount_hitList, Nat.add_zero]
          exact hmemR x
      · intro t ht
        rw [releaseCount_append, releaseCount_hitList, Nat.add_zero]
        exact h.cached_unreleased t (hpermT.subset ht)
      · intro t
        refine conserve_of_perm_counts hpermT ?_ ?_ (h.conserve t)
        · rw [createCount_append, createCount_hitList, Nat.add_zero]
        · rw [releaseCount_append, releaseCount_hitList, Nat.add_zero]
      · intro t
        rw [releaseCount_append, releaseCount_hitList, Nat.add_zero]
        exact h.release_le t
      · intro t ht
        have ht' : s.nextTree ≤ t := ht
        rw [createCount_append, createCount_hitList, Nat.add_zero,
            releaseCount_append, releaseCount_hitList, Nat.add_zero]
        exact h.fresh_zero t ht'
    · by_cases hok : eng.ok doc.text = true
      · -- path 2: incremental reparse, engine succeeds
        have hs1 : (Trees.parse eng s doc).1 = {
            cache := (doc.uri, ⟨doc.version, s.nextTree, []⟩) ::
              lruRemove s.cache doc.uri,
            nextTree := s.nextTree + 1,
            trace := s.trace ++ info.edits.flatten.map (Ev.editTree info.tree) ++
              [Ev.parseCall doc.text (some info.tree), Ev.create s.nextTree,
               Ev.release info.tree, Ev.parseDone doc.uri s.nextTree doc.version] } := by
          simp [Trees.parse, hc, hver, hok]
        rw [hs1]
        have hnt_notin : s.nextTree ∉
            (lruRemove s.cache doc.uri).map (fun p => p.2.tree) :=
          fun hx => Nat.lt_irrefl _ (h.trees_lt _ (hrm_sub _ hx))
        refine ⟨hpermK.nodup_iff.mpr h.keys_nodup,
          List.nodup_cons.mpr ⟨hnt_notin, hrm_nodup⟩, ?_, ?_, ?_, ?_, ?_, ?_⟩
        · intro t ht
          have ht' : t ∈ s.nextTree ::
              (lruRemove s.cache doc.uri).map (fun p => p.2.tree) := ht
          rcases List.mem_cons.mp ht' with rfl | hin
          · exact Nat.lt_succ_self _
          · exact Nat.lt_succ_of_lt (h.trees_lt t (hrm_sub t hin))
        · refine ⟨info.tree :: R, ?_, ?_⟩
          · rw [scanRel_append, scanRel_append, hscan]
            show (scanRel R (info.edits.flatten.map (Ev.editTree info.tree))).bind
              (fun r' => scanRel r' [Ev.parseCall doc.text (some info.tree),
                Ev.create s.nextTree, Ev.release info.tree,
                Ev.parseDone doc.uri s.nextTree doc.version]) = some (info.tree :: R)
            rw [scanRel_editEvs R info.tree _ hold_notR]
            show scanRel R [Ev.parseCall doc.text (some info.tree),
              Ev.create s.nextTree, Ev.release info.tree,
              Ev.parseDone doc.uri s.nextTree doc.version] = some (info.tree :: R)
            have hnt_notin2 : s.nextTree ∉ info.tree :: R := by
              intro hx
              rcases List.mem_cons.mp hx with heq | hxR
              · omega
              · exact hnt_notR hxR
            rw [scanRel_cons_parseCall_some, if_neg hold_notR, scanRel_cons_create,
                scanRel_cons_release, if_neg hold_notR, scanRel_cons_parseDone,
                if_neg hnt_notin2]
            rfl
          · intro x
            rw [releaseCount_append, releaseCount_append, releaseCount_editEvs,
                Nat.add_zero, releaseCount_incrList]
            constructor
            · intro hx
              rcases List.mem_cons.mp hx with rfl | hxR
              · simp [hold_rel0]
              · have hne := (hmemR x).mp hxR
                intro h0
                exact hne (Nat.eq_zero_of_add_eq_zero_right h0)
            · intro hx
              by_cases hxo : info.tree = x
              · exact hxo ▸ List.mem_cons_self _ _
              · rw [if_neg hxo, Nat.add_zero] at hx
                exact List.mem_cons_of_mem _ ((hmemR x).mpr hx)
        · intro t ht
          have ht' : t ∈ s.nextTree ::
              (lruRemove s.cache doc.uri).map (fun p => p.2.tree) := ht
          rw [releaseCount_append, releaseCount_append, releaseCount_editEvs,
              Nat.add_zero, releaseCount_incrList]
          rcases List.mem_cons.mp ht' with rfl | hin
          · have h1 := (h.fresh_zero s.nextTree le_rfl).2
            have hne : ¬(info.tree = s.nextTree) := by omega
            rw [h1, if_neg hne]
          · have h1 := h.cached_unreleased t (hrm_sub t hin)
            have hne : ¬(info.tree = t) := fun hs => hold_notin_rm (hs ▸ hin)
            rw [h1, if_neg hne]
        · intro x
          show createCount (s.trace ++ info.edits.flatten.map (Ev.editTree info.tree) ++
              [Ev.parseCall doc.text (some info.tree), Ev.create s.nextTree,
               Ev.release info.tree, Ev.parseDone doc.uri s.nextTree doc.version]) x =
            releaseCount (s.trace ++ info.edits.flatten.map (Ev.editTree info.tree) ++
              [Ev.parseCall doc.text (some info.tree), Ev.create s.nextTree,
               Ev.release info.tree, Ev.parseDone doc.uri s.nextTree doc.version]) x +
            (if x ∈ s.nextTree ::
              (lruRemove s.cache doc.uri).map (fun p => p.2.tree) then 1 else 0)
          rw [createCount_append, createCount_append, createCount_editEvs, Nat.add_zero,
              createCount_incrList, releaseCount_append, releaseCount_append,
              releaseCount_editEvs, Nat.add_zero, releaseCount_incrList]
          by_cases hxnt : x = s.nextTree
          · subst hxnt
            have h1 := h.fresh_zero s.nextTree le_rfl
            have hne : ¬(info.tree = s.nextTree) := by omega
            rw [h1.1, h1.2, if_pos rfl, if_neg hne,
                if_pos (List.mem_cons_self s.nextTree ((lruRemove s.cache doc.uri).map
                  (fun p => p.2.tree)))]
          · by_cases hxo : x = info.tree
            · subst hxo
              have hcon := h.conserve info.tree
              rw [if_pos hold_mem] at hcon
              have hxmem : info.tree ∉ s.nextTree ::
                  (lruRemove s.cache doc.uri).map (fun p => p.2.tree) := by
                intro hx
                rcases List.mem_cons.mp hx with heq | hin
                · exact hxnt heq
                · exact hold_notin_rm hin
              rw [if_neg (fun hs => hxnt hs.symm), if_pos rfl, if_neg hxmem,
                  hcon, hold_rel0]
            · have hne1 : ¬(s.nextTree = x) := fun hs => hxnt hs.symm
              have hne2 : ¬(info.tree = x) := fun hs => hxo hs.symm
              rw [if_neg hne1, if_neg hne2]
              have hmemiff : (x ∈ s.nextTree ::
                  (lruRemove s.cache doc.uri).map (fun p => p.2.tree)) ↔
                  x ∈ cachedTrees s := by
                constructor
                · intro hx
                  rcases List.mem_cons.mp hx with heq | hin
                  · exact absurd heq hxnt
                  · exact hrm_sub x hin
                · intro hx
                  rcases List.mem_cons.mp (hpermT.mem_iff.mpr hx) with heq | hin
                  · exact absurd heq hxo
                  · exact List.mem_cons_of_mem _ hin
              rw [if_congr hmemiff rfl rfl]
              have := h.conserve x
              omega
        · intro x
          rw [releaseCount_append, releaseCount_append, releaseCount_editEvs,
              Nat.add_zero, releaseCount_incrList]
          by_cases hxo : info.tree = x
          · rw [if_pos hxo, ← hxo, hold_rel0]
          · rw [if_neg hxo, Nat.add_zero]
            exact h.release_le x
        · intro t ht
          have ht' : s.nextTree + 1 ≤ t := ht
          have h1 := h.fresh_zero t (by omega)
          have hne1 : ¬(s.nextTree = t) := by omega
          have hne2 : ¬(info.tree = t) := by omega
          constructor
          · rw [createCount_append, createCount_append, createCount_editEvs,
                Nat.add_zero, createCount_incrList, if_neg hne1, h1.1]
          · rw [releaseCount_append, releaseCount_append, releaseCount_editEvs,
                Nat.add_zero, releaseCount_incrList, if_neg hne2, h1.2]
      · -- path 3: incremental reparse, engine throws; entry deleted
        have hokf : eng.ok doc.text = false := by
          cases hb : eng.ok doc.text with
          | true => exact absurd hb hok
          | false => rfl
        have hs1 : (Trees.parse eng s doc).1 = { s with
            cache := lruRemove s.cache doc.uri,
            trace := s.trace ++ info.edits.flatten.map (Ev.editTree info.tree) ++
              [Ev.parseCall doc.text (some info.tree), Ev.release info.tree] } := by
          simp [Trees.parse, hc, hver, hokf]
        rw [hs1]
        have hK : ((lruRemove s.cache doc.uri).map Prod.fst).Nodup :=
          (List.nodup_cons.mp (hpermK.nodup_iff.mpr h.keys_nodup)).2
        refine ⟨hK, hrm_nodup, ?_, ?_, ?_, ?_, ?_, ?_⟩
        · intro t ht
          exact h.trees_lt t (hrm_sub t ht)
        · refine ⟨info.tree :: R, ?_, ?_⟩
          · rw [scanRel_append, scanRel_append, hscan]
            show (scanRel R (info.edits.flatten.map (Ev.editTree info.tree))).bind
              (fun r' => scanRel r'
                [Ev.parseCall doc.text (some info.tree), Ev.release info.tree]) =
              some (info.tree :: R)
            rw [scanRel_editEvs R info.tree _ hold_notR]
            show scanRel R [Ev.parseCall doc.text (some info.tree),
              Ev.release info.tree] = some (info.tree :: R)
            rw [scanRel_cons_parseCall_some, if_neg hold_notR,
                scanRel_cons_release, if_neg hold_notR]
            rfl
          · intro x
            rw [releaseCount_append, releaseCount_append, releaseCount_editEvs,
                Nat.add_zero, releaseCount_failList]
            constructor
            · intro hx
              rcases List.mem_cons.mp hx with rfl | hxR
              · simp [hold_rel0]
              · have hne := (hmemR x).mp hxR
                intro h0
                exact hne (Nat.eq_zero_of_add_eq_zero_right h0)
            · intro hx
              by_cases hxo : info.tree = x
              · exact hxo ▸ List.mem_cons_self _ _
              · rw [if_neg hxo, Nat.add_zero] at hx
                exact List.mem_cons_of_mem _ ((hmemR x).mpr hx)
        · intro t ht
          rw [releaseCount_append, releaseCount_append, releaseCount_editEvs,
              Nat.add_zero, releaseCount_failList]
          have h1 := h.cached_unreleased t (hrm_sub t ht)
          have hne : ¬(info.tree = t) := fun hs => hold_notin_rm (hs ▸ ht)
          rw [h1, if_neg hne]
        · intro x
          show createCount (s.trace ++ info.edits.flatten.map (Ev.editTree info.tree) ++
              [Ev.parseCall doc.text (some info.tree), Ev.release info.tree]) x =
            releaseCount (s.trace ++ info.edits.flatten.map (Ev.editTree info.tree) ++
              [Ev.parseCall doc.text (some info.tree), Ev.release info.tree]) x +
            (if x ∈ (lruRemove s.cache doc.uri).map (fun p => p.2.tree) then 1 else 0)
          rw [createCount_append, createCount_append, createCount_editEvs, Nat.add_zero,
              createCount_failList, Nat.add_zero, releaseCount_append,
              releaseCount_append, releaseCount_editEvs, Nat.add_zero,
              releaseCount_failList]
          by_cases hxo : x = info.tree
          · subst hxo
            have hcon := h.conserve info.tree
            rw [if_pos hold_mem] at hcon
            rw [if_pos rfl, if_neg hold_notin_rm, hcon, hold_rel0]
          · have hne2 : ¬(info.tree = x) := fun hs => hxo hs.symm
            rw [if_neg hne2]
            have hmemiff : (x ∈ (lruRemove s.cache doc.uri).map (fun p => p.2.tree)) ↔
                x ∈ cachedTrees s := by
              constructor
              · intro hx
                exact hrm_sub x hx
              · intro hx
                rcases List.mem_cons.mp (hpermT.mem_iff.mpr hx) with heq | hin
                · exact absurd heq hxo
                · exact hin
            rw [if_congr hmemiff rfl rfl]
            have := h.conserve x
            omega
        · intro x
          rw [releaseCount_append, releaseCount_append, releaseCount_editEvs,
              Nat.add_zero, releaseCount_failList]
          by_cases hxo : info.tree = x
          · rw [if_pos hxo, ← hxo, hold_rel0]
          · rw [if_neg hxo, Nat.add_zero]
            exact h.release_le x
        · intro t ht
          have ht' : s.nextTree ≤ t := ht
          have h1 := h.fresh_zero t ht'
          have hne2 : ¬(info.tree = t) := by omega
          constructor
          · rw [createCount_append, createCount_append, createCount_editEvs,
                Nat.add_zero, createCount_failList, Nat.add_zero, h1.1]
          · rw [releaseCount_append, releaseCount_append, releaseCount_editEvs,
                Nat.add_zero, releaseCount_failList, if_neg hne2, h1.2]
  | none =>
    have hrm : lruRemove s.cache doc.uri = s.cache :=
      lruRemove_eq_of_findEntry_none s.cache doc.uri hc
    have huri : doc.uri ∉ s.cache.map Prod.fst :=
      not_mem_keys_of_findEntry_none s.cache doc.uri hc
    have hnt_notR : s.nextTree ∉ R := fun hx =>
      (hmemR s.nextTree).mp hx (h.fresh_zero s.nextTree le_rfl).2
    have hnt_notin : s.nextTree ∉ cachedTrees s :=
      fun hx => Nat.lt_irrefl _ (h.trees_lt _ hx)
    by_cases hok : eng.ok doc.text = true
    · by_cases hcap : cacheCapacity ≤ (lruRemove s.cache doc.uri).length
      · cases hlast : (lruRemove s.cache doc.uri).getLast? with
        | none =>
          exfalso
          have : lruRemove s.cache doc.uri = [] := List.getLast?_eq_none_iff.mp hlast
          rw [this] at hcap
          simp [cacheCapacity] at hcap
        | some victim =>
          -- path 4a: fresh parse with LRU eviction
          have hsplit : s.cache.dropLast ++ [victim] = s.cache := by
            have h2 : s.cache.getLast? = some victim := hrm ▸ hlast
            exact List.dropLast_append_getLast? victim h2
          have hs1 : (Trees.parse eng s doc).1 = {
              cache := (doc.uri, ⟨doc.version, s.nextTree, []⟩) ::
                (lruRemove s.cache doc.uri).dropLast,
              nextTree := s.nextTree + 1,
              trace := s.trace ++ [Ev.parseCall doc.text none, Ev.create s.nextTree] ++
                [Ev.release victim.2.tree] ++
                [Ev.parseDone doc.uri s.nextTree doc.version] } := by
            simp [Trees.parse, hc, hok, lruSet, hcap, hlast]
          rw [hs1, hrm]
          have htreesS : s.cache.dropLast.map (fun p => p.2.tree) ++ [victim.2.tree] =
              cachedTrees s := by
            show s.cache.dropLast.map (fun p => p.2.tree) ++ [victim.2.tree] =
              s.cache.map (fun p => p.2.tree)
            conv_rhs => rw [← hsplit]
            rw [List.map_append]
            rfl
          have hkeysS : s.cache.dropLast.map Prod.fst ++ [victim.1] =
              s.cache.map Prod.fst := by
            conv_rhs => rw [← hsplit]
            rw [List.map_append]
            rfl
          have hvt_mem : victim.2.tree ∈ cachedTrees s := by
            rw [← htreesS]
            exact List.mem_append_right _ (List.mem_singleton.mpr rfl)
          have hvt_rel0 : releaseCount s.trace victim.2.tree = 0 :=
            h.cached_unreleased _ hvt_mem
          have hvt_notR : victim.2.tree ∉ R := fun hx =>
            (hmemR _).mp hx hvt_rel0
          have hvt_lt : victim.2.tree < s.nextTree := h.trees_lt _ hvt_mem
          have hdl_sub : ∀ x ∈ s.cache.dropLast.map (fun p => p.2.tree),
              x ∈ cachedTrees s := by
            intro x hx
            rw [← htreesS]
            exact List.mem_append_left _ hx
          have hnodupS : (s.cache.dropLast.map (fun p => p.2.tree) ++
              [victim.2.tree]).Nodup := by
            rw [htreesS]; exact h.trees_nodup
          have hdl_nodup : (s.cache.dropLast.map (fun p => p.2.tree)).Nodup :=
            (List.nodup_append.mp hnodupS).1
          have hvt_notin_dl : victim.2.tree ∉ s.cache.dropLast.map (fun p => p.2.tree) := by
            intro hx
            exact (List.nodup_append.mp hnodupS).2.2 hx (List.mem_singleton.mpr rfl)
          have hnt_notin_dl : s.nextTree ∉ s.cache.dropLast.map (fun p => p.2.tree) :=
            fun hx => hnt_notin (hdl_sub _ hx)
          have hkeynodupS : (s.cache.dropLast.map Prod.fst ++ [victim.1]).Nodup := by
            rw [hkeysS]; exact h.keys_nodup
          have hdlK_nodup : (s.cache.dropLast.map Prod.fst).Nodup :=
            (List.nodup_append.mp hkeynodupS).1
          have huri_notin_dl : doc.uri ∉ s.cache.dropLast.map Prod.fst := by
            intro hx
            apply huri
            rw [← hkeysS]
            exact List.mem_append_left _ hx
          refine ⟨List.nodup_cons.mpr ⟨huri_notin_dl, hdlK_nodup⟩,
            List.nodup_cons.mpr ⟨hnt_notin_dl, hdl_nodup⟩, ?_, ?_, ?_, ?_, ?_, ?_⟩
          · intro t ht
            have ht' : t ∈ s.nextTree :: s.cache.dropLast.map (fun p => p.2.tree) := ht
            rcases List.mem_cons.mp ht' with rfl | hin
            · exact Nat.lt_succ_self _
            · exact Nat.lt_succ_of_lt (h.trees_lt t (hdl_sub t hin))
          · refine ⟨victim.2.tree :: R, ?_, ?_⟩
            · rw [scanRel_append, scanRel_append, scanRel_append, hscan]
              show ((scanRel R [Ev.parseCall doc.text none, Ev.create s.nextTree]).bind
                (fun r' => scanRel r' [Ev.release victim.2.tree])).bind
                  (fun r' => scanRel r' [Ev.parseDone doc.uri s.nextTree doc.version]) =
                some (victim.2.tree :: R)
              rw [scanRel_cons_parseCall_none, scanRel_cons_create]
              show ((some R).bind (fun r' => scanRel r' [Ev.release victim.2.tree])).bind
                (fun r' => scanRel r' [Ev.parseDone doc.uri s.nextTree doc.version]) =
                some (victim.2.tree :: R)
              show (scanRel R [Ev.release victim.2.tree]).bind
                (fun r' => scanRel r' [Ev.parseDone doc.uri s.nextTree doc.version]) =
                some (victim.2.tree :: R)
              rw [scanRel_cons_release, if_neg hvt_notR]
              show scanRel (victim.2.tree :: R)
                [Ev.parseDone doc.uri s.nextTree doc.version] =
                some (victim.2.tree :: R)
              have hnt2 : s.nextTree ∉ victim.2.tree :: R := by
                intro hx
                rcases List.mem_cons.mp hx with heq | hxR
                · omega
                · exact hnt_notR hxR
              rw [scanRel_cons_parseDone, if_neg hnt2]
              rfl
            · intro x
              rw [releaseCount_append, releaseCount_append, releaseCount_append,
                  releaseCount_freshList, Nat.add_zero, releaseCount_relList,
                  releaseCount_doneList, Nat.add_zero]
              constructor
              · intro hx
                rcases List.mem_cons.mp hx with rfl | hxR
                · simp [hvt_rel0]
                · have hne := (hmemR x).mp hxR
                  intro h0
                  exact hne (Nat.eq_zero_of_add_eq_zero_right h0)
              · intro hx
                by_cases hxv : victim.2.tree = x
                · exact hxv ▸ List.mem_cons_self _ _
                · rw [if_neg hxv, Nat.add_zero] at hx
                  exact List.mem_cons_of_mem _ ((hmemR x).mpr hx)
          · intro t ht
            have ht' : t ∈ s.nextTree :: s.cache.dropLast.map (fun p => p.2.tree) := ht
            rw [releaseCount_append, releaseCount_append, releaseCount_append,
                releaseCount_freshList, Nat.add_zero, releaseCount_relList,
                releaseCount_doneList, Nat.add_zero]
            rcases List.mem_cons.mp ht' with rfl | hin
            · have h1 := (h.fresh_zero s.nextTree le_rfl).2
              have hne : ¬(victim.2.tree = s.nextTree) := by omega
              rw [h1, if_neg hne]
            · have h1 := h.cached_unreleased t (hdl_sub t hin)
              have hne : ¬(victim.2.tree = t) := fun hs => hvt_notin_dl (hs ▸ hin)
              rw [h1, if_neg hne]
          · intro x
            show createCount (s.trace ++ [Ev.parseCall doc.text none,
                Ev.create s.nextTree] ++ [Ev.release victim.2.tree] ++
                [Ev.parseDone doc.uri s.nextTree doc.version]) x =
              releaseCount (s.trace ++ [Ev.parseCall doc.text none,
                Ev.create s.nextTree] ++ [Ev.release victim.2.tree] ++
                [Ev.parseDone doc.uri s.nextTree doc.version]) x +
              (if x ∈ s.nextTree :: s.cache.dropLast.map (fun p => p.2.tree)
                then 1 else 0)
            rw [createCount_append, createCount_append, createCount_append,
                createCount_freshList, createCount_relList, createCount_doneList,
                Nat.add_zero, releaseCount_append, releaseCount_append,
                releaseCount_append, releaseCount_freshList, Nat.add_zero,
                releaseCount_relList, releaseCount_doneList, Nat.add_zero]
            by_cases hxnt : x = s.nextTree
            · subst hxnt
              have h1 := h.fresh_zero s.nextTree le_rfl
              have hne : ¬(victim.2.tree = s.nextTree) := by omega
              rw [h1.1, h1.2, if_pos rfl, if_neg hne,
                  if_pos (List.mem_cons_self s.nextTree (s.cache.dropLast.map
                    (fun p => p.2.tree)))]
            · by_cases hxv : x = victim.2.tree
              · subst hxv
                have hcon := h.conserve victim.2.tree
                rw [if_pos hvt_mem] at hcon
                have hxmem : victim.2.tree ∉ s.nextTree ::
                    s.cache.dropLast.map (fun p => p.2.tree) := by
                  intro hx
                  rcases List.mem_cons.mp hx with heq | hin
                  · exact hxnt heq
                  · exact hvt_notin_dl hin
                rw [if_neg (fun hs => hxnt hs.symm), if_pos rfl, if_neg hxmem,
                    hcon, hvt_rel0]
              · have hne1 : ¬(s.nextTree = x) := fun hs => hxnt hs.symm
                have hne2 : ¬(victim.2.tree = x) := fun hs => hxv hs.symm
                rw [if_neg hne1, if_neg hne2]
                have hmemiff : (x ∈ s.nextTree ::
                    s.cache.dropLast.map (fun p => p.2.tree)) ↔
                    x ∈ cachedTrees s := by
                  constructor
                  · intro hx
                    rcases List.mem_cons.mp hx with heq | hin
                    · exact absurd heq hxnt
                    · exact hdl_sub x hin
                  · intro hx
                    rw [← htreesS] at hx
                    rcases List.mem_append.mp hx with hin | hin
                    · exact List.mem_cons_of_mem _ hin
                    · exact absurd (List.mem_singleton.mp hin) hxv
                rw [if_congr hmemiff rfl rfl]
                have := h.conserve x
                omega
          · intro x
            rw [releaseCount_append, releaseCount_append, releaseCount_append,
                releaseCount_freshList, Nat.add_zero, releaseCount_relList,
                releaseCount_doneList, Nat.add_zero]
            by_cases hxv : victim.2.tree = x
            · rw [if_pos hxv, ← hxv, hvt_rel0]
            · rw [if_neg hxv, Nat.add_zero]
              exact h.release_le x
          · intro t ht
            have ht' : s.nextTree + 1 ≤ t := ht
            have h1 := h.fresh_zero t (by omega)
            have hne1 : ¬(s.nextTree = t) := by omega
            have hne2 : ¬(victim.2.tree = t) := by omega
            constructor
            · rw [createCount_append, createCount_append, createCount_append,
                  createCount_freshList, createCount_relList, createCount_doneList,
                  Nat.add_zero, if_neg hne1, h1.1]
            · rw [releaseCount_append, releaseCount_append, releaseCount_append,
                  releaseCount_freshList, Nat.add_zero, releaseCount_relList,
                  releaseCount_doneList, Nat.add_zero, if_neg hne2, h1.2]
      · -- path 4b: fresh parse, no eviction
        have hs1 : (Trees.parse eng s doc).1 = {
            cache := (doc.uri, ⟨doc.version, s.nextTree, []⟩) ::
              lruRemove s.cache doc.uri,
            nextTree := s.nextTree + 1,
            trace := s.trace ++ [Ev.parseCall doc.text none, Ev.create s.nextTree] ++
              [Ev.parseDone doc.uri s.nextTree doc.version] } := by
          simp [Trees.parse, hc, hok, lruSet, hcap]
        rw [hs1, hrm]
        refine ⟨List.nodup_cons.mpr ⟨huri, h.keys_nodup⟩,
          List.nodup_cons.mpr ⟨hnt_notin, h.trees_nodup⟩, ?_, ?_, ?_, ?_, ?_, ?_⟩
        · intro t ht
          have ht' : t ∈ s.nextTree :: cachedTrees s := ht
          rcases List.mem_cons.mp ht' with rfl | hin
          · exact Nat.lt_succ_self _
          · exact Nat.lt_succ_of_lt (h.trees_lt t hin)
        · refine ⟨R, ?_, ?_⟩
          · rw [scanRel_append, scanRel_append, hscan]
            show (scanRel R [Ev.parseCall doc.text none, Ev.create s.nextTree]).bind
              (fun r' => scanRel r' [Ev.parseDone doc.uri s.nextTree doc.version]) =
              some R
            rw [scanRel_cons_parseCall_none, scanRel_cons_create]
            show scanRel R [Ev.parseDone doc.uri s.nextTree doc.version] = some R
            rw [scanRel_cons_parseDone, if_neg hnt_notR]
            rfl
          · intro x
            rw [releaseCount_append, releaseCount_append, releaseCount_freshList,
                Nat.add_zero, releaseCount_doneList, Nat.add_zero]
            exact hmemR x
        · intro t ht
          have ht' : t ∈ s.nextTree :: cachedTrees s := ht
          rw [releaseCount_append, releaseCount_append, releaseCount_freshList,
              Nat.add_zero, releaseCount_doneList, Nat.add_zero]
          rcases List.mem_cons.mp ht' with rfl | hin
          · exact (h.fresh_zero s.nextTree le_rfl).2
          · exact h.cached_unreleased t hin
        · intro x
          show createCount (s.trace ++ [Ev.parseCall doc.text none,
              Ev.create s.nextTree] ++
              [Ev.parseDone doc.uri s.nextTree doc.version]) x =
            releaseCount (s.trace ++ [Ev.parseCall doc.text none,
              Ev.create s.nextTree] ++
              [Ev.parseDone doc.uri s.nextTree doc.version]) x +
            (if x ∈ s.nextTree :: cachedTrees s then 1 else 0)
          rw [createCount_append, createCount_append, createCount_freshList,
              createCount_doneList, Nat.add_zero, releaseCount_append,
              releaseCount_append, releaseCount_freshList, Nat.add_zero,
              releaseCount_doneList, Nat.add_zero]
          by_cases hxnt : x = s.nextTree
          · subst hxnt
            have h1 := h.fresh_zero s.nextTree le_rfl
            rw [h1.1, h1.2, if_pos rfl,
                if_pos (List.mem_cons_self s.nextTree (cachedTrees s))]
          · have hne1 : ¬(s.nextTree = x) := fun hs => hxnt hs.symm
            rw [if_neg hne1, Nat.add_zero]
            have hmemiff : (x ∈ s.nextTree :: cachedTrees s) ↔ x ∈ cachedTrees s := by
              constructor
              · intro hx
                rcases List.mem_cons.mp hx with heq | hin
                · exact absurd heq hxnt
                · exact hin
              · exact fun hx => List.mem_cons_of_mem _ hx
            rw [if_congr hmemiff rfl rfl]
            exact h.conserve x
        · intro x
          rw [releaseCount_append, releaseCount_append, releaseCount_freshList,
              Nat.add_zero, releaseCount_doneList, Nat.add_zero]
          exact h.release_le x
        · intro t ht
          have ht' : s.nextTree + 1 ≤ t := ht
          have h1 := h.fresh_zero t (by omega)
          have hne1 : ¬(s.nextTree = t) := by omega
          constructor
          · rw [createCount_append, createCount_append, createCount_freshList,
                createCount_doneList, Nat.add_zero, if_neg hne1, h1.1]
          · rw [releaseCount_append, releaseCount_append, releaseCount_freshList,
                Nat.add_zero, releaseCount_doneList, Nat.add_zero, h1.2]
    · -- path 5: fresh parse, engine throws; cache unchanged
      have hokf : eng.ok doc.text = false := by
        cases hb : eng.ok doc.text with
        | true => exact absurd hb hok
        | false => rfl
      have hs1 : (Trees.parse eng s doc).1 = { s with
          trace := s.trace ++ [Ev.parseCall doc.text none] } := by
        simp [Trees.parse, hc, hokf]
      rw [hs1]
      refine ⟨h.keys_nodup, h.trees_nodup, h.trees_lt, ⟨R, ?_, ?_⟩, ?_, ?_, ?_, ?_⟩
      · rw [scanRel_append, hscan]
        show scanRel R [Ev.parseCall doc.text none] = some R
        rw [scanRel_cons_parseCall_none]
        rfl
      · intro x
        rw [releaseCount_append, releaseCount_pcList, Nat.add_zero]
        exact hmemR x
      · intro t ht
        rw [releaseCount_append, releaseCount_pcList, Nat.add_zero]
        exact h.cached_unreleased t ht
      · intro t
        rw [createCount_append, createCount_pcList, Nat.add_zero,
            releaseCount_append, releaseCount_pcList, Nat.add_zero]
        exact h.conserve t
      · intro t
        rw [releaseCount_append, releaseCount_pcList, Nat.add_zero]
        exact h.release_le t
      · intro t ht
        have ht' : s.nextTree ≤ t := ht
        rw [createCount_append, createCount_pcList, Nat.add_zero,
            releaseCount_append, releaseCount_pcList, Nat.add_zero]
        exact h.fresh_zero t ht'

theorem inv_step (eng : ParserEngine) (s : TreesState) (a : Trees.Action)
    (h : TreesInv s) : TreesInv (Trees.step eng s a) := by
  cases a with
  | getTree doc => exact inv_parse eng s doc h
  | change e => exact inv_handleChange s e h

theorem inv_run (eng : ParserEngine) (acts : List Trees.Action) (s : TreesState)
    (h : TreesInv s) : TreesInv (Trees.run eng s acts) := by
  induction acts generalizing s with
  | nil => exact h
  | cons a rest ih => exact ih (Trees.step eng s a) (inv_step eng s a h)

theorem dispose_accounting (s : TreesState) (h : TreesInv s) :
    (scanRel [] (Trees.dispose s).trace).isSome = true ∧
    ∀ id, releaseCount (Trees.dispose s).trace id =
        createCount (Trees.dispose s).trace id ∧
      releaseCount (Trees.dispose s).trace id ≤ 1 := by
  obtain ⟨R, hscan, hmemR⟩ := h.scan
  have htr : (Trees.dispose s).trace = s.trace ++ (cachedTrees s).map Ev.release := by
    simp [Trees.dispose, cachedTrees, List.map_map, Function.comp]
  have hnotR : ∀ t ∈ cachedTrees s, t ∉ R := fun t ht hx =>
    (hmemR t).mp hx (h.cached_unreleased t ht)
  rcases scanRel_releaseMap R (cachedTrees s) h.trees_nodup hnotR with ⟨R', hR', _⟩
  constructor
  · rw [htr, scanRel_append, hscan]
    show (scanRel R ((cachedTrees s).map Ev.release)).isSome = true
    rw [hR']
    rfl
  · intro id
    rw [htr, releaseCount_append, createCount_append, releaseCount_releaseMap,
        createCount_releaseMap, Nat.add_zero]
    have hconserve := h.conserve id
    by_cases hid : id ∈ cachedTrees s
    · have hcnt : (cachedTrees s).count id = 1 :=
        List.count_eq_one_of_mem h.trees_nodup hid
      have hrel0 : releaseCount s.trace id = 0 := h.cached_unreleased id hid
      rw [if_pos hid] at hconserve
      rw [hcnt, hrel0]
      rw [hrel0] at hconserve
      exact ⟨by omega, by omega⟩
    · have hcnt : (cachedTrees s).count id = 0 := List.count_eq_zero_of_not_mem hid
      rw [if_neg hid] at hconserve
      rw [hcnt]
      have hle := h.release_le id
      exact ⟨by omega, by omega⟩

/-- Claim C3: across any sequence of `getTreeForDocument` calls and change
notifications, with the cache evictions and failure-path removals they
trigger, followed by a final `dispose()`, every tree handle's release is
invoked exactly once per created handle — the trace scanner accepts the
whole run (no double release, no read of a released tree), and release and
creation counts agree, each at most one per handle. -/
theorem Trees.tree_release_exactly_once (eng : ParserEngine)
    (acts : List Trees.Action) :
    (scanRel [] (Trees.dispose (Trees.run eng Trees.initState acts)).trace).isSome
      = true ∧
    ∀ id, releaseCount (Trees.dispose (Trees.run eng Trees.initState acts)).trace id =
        createCount (Trees.dispose (Trees.run eng Trees.initState acts)).trace id ∧
      releaseCount (Trees.dispose (Trees.run eng Trees.initState acts)).trace id ≤ 1 :=
  dispose_accounting (Trees.run eng Trees.initState acts)
    (inv_run eng acts Trees.initState inv_init)

/-! ### Concrete witnesses -/

theorem Trees.parse_incremental_spec_witness :
    (Trees.parse ⟨fun _ => true⟩ ⟨[("a.tolk", ⟨1, 7, [[]]⟩)], 8, []⟩
      ⟨"a.tolk", 2, "x", fun _ => Position.mk 0 0⟩).2 = some 8 :=
  (Trees.parse_incremental_spec ⟨fun _ => true⟩ ⟨[("a.tolk", ⟨1, 7, [[]]⟩)], 8, []⟩
    ⟨"a.tolk", 2, "x", fun _ => Position.mk 0 0⟩ ⟨1, 7, [[]]⟩
    (by decide) (by decide) rfl).1

theorem Trees.parse_engineFailure_evicts_witness :
    (Trees.parse ⟨fun _ => false⟩ Trees.initState
      ⟨"a.tolk", 1, "x", fun _ => Position.mk 0 0⟩).2 = none :=
  (Trees.parse_engineFailure_evicts ⟨fun _ => false⟩ Trees.initState
    ⟨"a.tolk", 1, "x", fun _ => Position.mk 0 0⟩
    (by decide) rfl (fun e he => nomatch he)).1

theorem Trees.parse_cacheHit_returns_same_tree_witness :
    (Trees.parse ⟨fun _ => true⟩ ⟨[("a.tolk", ⟨2, 7, []⟩)], 8, []⟩
      ⟨"a.tolk", 2, "x", fun _ => Position.mk 0 0⟩).2 = some 7 :=
  (Trees.parse_cacheHit_returns_same_tree ⟨fun _ => true⟩
    ⟨[("a.tolk", ⟨2, 7, []⟩)], 8, []⟩
    ⟨"a.tolk", 2, "x", fun _ => Position.mk 0 0⟩ ⟨2, 7, []⟩ (by decide) rfl).1

theorem Trees.parse_fresh_spec_witness :
    (Trees.parse ⟨fun _ => true⟩ Trees.initState
      ⟨"a.tolk", 1, "x", fun _ => Position.mk 0 0⟩).2 = some 0 :=
  (Trees.parse_fresh_spec ⟨fun _ => true⟩ Trees.initState
    ⟨"a.tolk", 1, "x", fun _ => Position.mk 0 0⟩ rfl rfl).1

theorem Trees.onChange_spec_witness :
    findEntry (Trees.handleChange ⟨[("a.tolk", ⟨1, 7, []⟩)], 8, []⟩
        ⟨⟨"a.tolk", 2, "xy", fun _ => Position.mk 0 2⟩,
         [⟨⟨⟨0, 0⟩, ⟨0, 1⟩⟩, 0, 1, "xy"⟩]⟩).cache "a.tolk" =
      some ⟨1, 7, [asEdits ⟨⟨"a.tolk", 2, "xy", fun _ => Position.mk 0 2⟩,
        [⟨⟨⟨0, 0⟩, ⟨0, 1⟩⟩, 0, 1, "xy"⟩]⟩]⟩ :=
  (Trees.onChange_spec ⟨[("a.tolk", ⟨1, 7, []⟩)], 8, []⟩
    ⟨⟨"a.tolk", 2, "xy", fun _ => Position.mk 0 2⟩,
     [⟨⟨⟨0, 0⟩, ⟨0, 1⟩⟩, 0, 1, "xy"⟩]⟩).1 ⟨1, 7, []⟩ (by decide)

theorem Trees.parseDone_consistent_with_cache_witness :
    ∃ e, findEntry (Trees.parse ⟨fun _ => true⟩ Trees.initState
        ⟨"a.tolk", 1, "x", fun _ => Position.mk 0 0⟩).1.cache "a.tolk" = some e ∧
      e.tree = 0 ∧ e.version = 1 :=
  Trees.parseDone_consistent_with_cache ⟨fun _ => true⟩ Trees.initState
    ⟨"a.tolk", 1, "x", fun _ => Position.mk 0 0⟩ "a.tolk" 0 1 (by decide)

theorem queryGlobals_deterministic_witness :
    queryGlobals ⟨fun _ => [⟨"function", ⟨"main", ⟨0, 0⟩, ⟨0, 4⟩⟩⟩]⟩
      ⟨"main", ⟨0, 0⟩, ⟨0, 4⟩⟩ =
    queryGlobals ⟨fun _ => [⟨"function", ⟨"main", ⟨0, 0⟩, ⟨0, 4⟩⟩⟩]⟩
      ⟨"main", ⟨0, 0⟩, ⟨0, 4⟩⟩ :=
  (queryGlobals_deterministic ⟨fun _ => [⟨"function", ⟨"main", ⟨0, 0⟩, ⟨0, 4⟩⟩⟩]⟩
    ⟨fun _ => [⟨"function", ⟨"main", ⟨0, 0⟩, ⟨0, 4⟩⟩⟩]⟩
    ⟨"main", ⟨0, 0⟩, ⟨0, 4⟩⟩ ⟨"main", ⟨0, 0⟩, ⟨0, 4⟩⟩ rfl).1

theorem Trees.parse_cacheHit_frame_witness :
    (Trees.parse ⟨fun _ => true⟩ ⟨[("b.tolk", ⟨3, 9, []⟩)], 10, []⟩
      ⟨"b.tolk", 3, "y", fun _ => Position.mk 0 0⟩).2 = some 9 :=
  (Trees.parse_cacheHit_frame ⟨fun _ => true⟩ ⟨[("b.tolk", ⟨3, 9, []⟩)], 10, []⟩
    ⟨"b.tolk", 3, "y", fun _ => Position.mk 0 0⟩ ⟨3, 9, []⟩ (by decide) rfl).2.2.2

theorem queryGlobals_capture_fields_witness :
    ((matchOfCapture ⟨"function", ⟨"main", ⟨0, 0⟩, ⟨0, 4⟩⟩⟩).type = "function" ∨
     (matchOfCapture ⟨"function", ⟨"main", ⟨0, 0⟩, ⟨0, 4⟩⟩⟩).type = "globalVar" ∨
     (matchOfCapture ⟨"function", ⟨"main", ⟨0, 0⟩, ⟨0, 4⟩⟩⟩).type = "const") ∧
    (matchOfCapture ⟨"function", ⟨"main", ⟨0, 0⟩, ⟨0, 4⟩⟩⟩).text =
      (matchOfCapture ⟨"function", ⟨"main", ⟨0, 0⟩, ⟨0, 4⟩⟩⟩).node.text ∧
    (matchOfCapture ⟨"function", ⟨"main", ⟨0, 0⟩, ⟨0, 4⟩⟩⟩).range =
      asLspRange (matchOfCapture ⟨"function", ⟨"main", ⟨0, 0⟩, ⟨0, 4⟩⟩⟩).node :=
  queryGlobals_capture_fields ⟨fun _ => [⟨"function", ⟨"main", ⟨0, 0⟩, ⟨0, 4⟩⟩⟩]⟩
    ⟨"main", ⟨0, 0⟩, ⟨0, 4⟩⟩
    (by intro n c hc
        have hce : c = ⟨"function", ⟨"main", ⟨0, 0⟩, ⟨0, 4⟩⟩⟩ := List.mem_singleton.mp hc
        rw [hce]
        decide)
    (matchOfCapture ⟨"function", ⟨"main", ⟨0, 0⟩, ⟨0, 4⟩⟩⟩)
    (by decide)
